import Mathlib

/-!
# ShamirSecretSharing — verification of the specification against the source

The repository consists of `src/sss.h` (the declaration and documented contract
of the interpolation engine `sss`) and `src/test/main.c` (the command-line
driver, a lightly adapted version of David Madore's `shsecret.c`).  The body of
the engine (`sss.c`) is not part of the source tree; only its header and its
caller are.  Accordingly:

* the interpolation engine is modelled from the specification (§4.1–§4.2),
  generically over a field, and the algebraic claims about it are settled
  against that model;
* the command-line driver `main` is embedded faithfully from `src/test/main.c`,
  with the absent engine abstracted as a function parameter, the heap
  abstracted as an oracle saying which allocations succeed, and the file
  system abstracted as a partial map from names to byte strings.  `read` on a
  successfully opened file is modelled as returning the file's contents (the
  driver always requests exactly the size it measured with `lseek`).
-/

open Function Polynomial Lagrange

/-! ## Part 1: the interpolation engine, modelled from the specification -/

section EngineDefs

variable {K : Type} [Field K] [DecidableEq K]

/-- Modelled from the spec: `sss.c` (the body of the engine declared in
`src/sss.h`) is absent from the source tree.  Following §4.2 step 1, the
Lagrange basis denominator `in_cross[j]` is the product over all `k ≠ j` of
the difference of the input points `x j` and `x k`.  (The spec writes the
difference as `x_k XOR x_j`; in GF(256), a field of characteristic two, XOR
is subtraction and is symmetric, so over a general field the subtraction
`x j - x k` is the faithful reading.) -/
def in_cross {n : ℕ} (x : Fin n → K) (j : Fin n) : K :=
  ∏ k ∈ Finset.univ.erase j, (x j - x k)

/-- Modelled from the spec: §4.2 step 2, `out_cross[z]` is the product over
all input points `x k` of `(z - x k)`. -/
def out_cross {n : ℕ} (x : Fin n → K) (z : K) : K :=
  ∏ k, (z - x k)

/-- Modelled from the spec: §4.2 step 3, the value interpolated at output
point `z` for one byte position, from input points `x` and the corresponding
input bytes `y`.  When `z` coincides with an input point the value is that
input's byte (the special case the spec mandates); otherwise it is the sum
over `j` of `y j · out_cross z / (in_cross j · (z - x j))`. -/
def sssByte {n : ℕ} (x y : Fin n → K) (z : K) : K :=
  match (List.finRange n).find? (fun j => decide (x j = z)) with
  | some j => y j
  | none => ∑ j, y j * (out_cross x z / (in_cross x j * (z - x j)))

/-- Modelled from the spec: §4.2, the engine computes one output buffer by
applying `sssByte` independently at every byte offset `i < ln`, reading byte
`i` of each input buffer (out-of-range reads default to `0`; the contract
requires every buffer to have at least `ln` bytes, so the default is never
exercised on contract-satisfying jobs). -/
def sssBuf {n : ℕ} (x : Fin n → K) (yb : Fin n → List K) (z : K) (ln : ℕ) :
    List K :=
  (List.range ln).map (fun i => sssByte x (fun j => (yb j).getD i 0) z)

end EngineDefs

/-! ## Part 2: the command-line driver, embedded from `src/test/main.c`

Bytes are modelled as natural numbers, file names and command-line arguments
as lists of characters, the file system as a partial map from names to byte
strings (`none` = the file cannot be opened), and the heap as an oracle
`mem : ℕ → Bool` telling whether the `k`-th allocation request of the run
succeeds.  The engine `sss`, whose implementation is not in the source tree,
is a parameter. -/

/-- Numeric value of a decimal digit character (`argv[k][l] - '0'`). -/
def digitVal (c : Char) : ℕ := c.toNat - 48

/-- The point-parsing loop of `main.c` lines 178–183: consume the leading
run of decimal digits, accumulating `p = p * 10 + digit` and failing
(`"Point value too large."`) as soon as the accumulator reaches 256.
Returns the accumulated point and the unconsumed remainder of the
argument. -/
def parsePoint : List Char → ℕ → Option (ℕ × List Char)
  | [], p => some (p, [])
  | c :: rest, p =>
    if c.isDigit then
      let q := p * 10 + digitVal c
      if 256 ≤ q then none
      else parsePoint rest q
    else some (p, c :: rest)

/-- The distinct `error(...)` exits of `main.c` reachable during argument
processing, plus the two emptiness checks of lines 231–234.  `allocFail`
stands for any of the `realloc`/`malloc` failures (`"realloc."`/`"malloc."`). -/
inductive MainErr
  | pointTooLarge
  | badSyntax
  | dupInput
  | allocFail
  | openInput
  | lenMismatch
  | tooManyOutputs
  | noInput
  | noOutput
deriving DecidableEq

/-- The message each error exit prints to `stderr` (via `error()`), copied
from the string literals of `main.c`. -/
def errMsg : MainErr → String
  | .pointTooLarge => "Point value too large."
  | .badSyntax => "Bad argument syntax."
  | .dupInput => "Duplicate input point."
  | .allocFail => "realloc."
  | .openInput => "Failed to open input file."
  | .lenMismatch => "not the same len."
  | .tooManyOutputs => "Too many output points."
  | .noInput => "No input files."
  | .noOutput => "No output files."

/-- The job handed to `sss(ip, op, iv, ov, in, on, ln)` at line 235: the
input points, output points, input value buffers, the *allocated sizes* of
the output value buffers (each was obtained by `malloc(ln)` with the value
`ln` had at the time its `+` argument was processed), and the length `ln`. -/
structure SssJob where
  ip : List ℕ
  op : List ℕ
  iv : List (List ℕ)
  ovLen : List ℕ
  ln : ℕ
deriving DecidableEq

/-- Externally visible actions of the driver, in program order: the single
call to `sss` and, per output argument, the `open(..., O_CREAT|O_TRUNC|
O_WRONLY, mode)` plus `write(fd, ov[k], ln)` of lines 236–244. -/
inductive Event
  | callSss (job : SssJob)
  | writeOut (name : List Char) (mode : ℕ) (len : ℕ) (bytes : List ℕ)
deriving DecidableEq

/-- POSIX `S_IRUSR` (owner read). -/
def S_IRUSR : ℕ := 0o400

/-- POSIX `S_IWUSR` (owner write). -/
def S_IWUSR : ℕ := 0o200

/-- POSIX `S_IRGRP` (group read). -/
def S_IRGRP : ℕ := 0o40

/-- POSIX `S_IROTH` (other read). -/
def S_IROTH : ℕ := 0o4

/-- The permission bits passed to `open` for every output file (line 239). -/
def outMode : ℕ := S_IRUSR ||| S_IWUSR ||| S_IRGRP ||| S_IROTH

/-- The mutable locals of `main` during the argument loop: the growing
arrays `ip`, `iv`, `op`, (sizes of) `ov`, `of`, the established length `ln`,
and the count of allocation requests made so far (consulted against the
heap oracle). -/
structure PState where
  ip : List ℕ
  iv : List (List ℕ)
  op : List ℕ
  ovLen : List ℕ
  ofs : List (List Char)
  ln : ℕ
  ctr : ℕ

/-- `main`'s locals after the initializations of lines 166–170. -/
def initState : PState :=
  { ip := [], iv := [], op := [], ovLen := [], ofs := [], ln := 0, ctr := 0 }

/-- One iteration of the argument loop of `main.c` lines 172–230, processing
one command-line argument:
* parse the leading digits into `p` (error `"Point value too large."`);
* on `'-'`: reject a duplicate input point, request two array reallocations,
  open the file, measure its size `s`, set `ln := s` if `ln` is still `0`
  and otherwise reject `ln ≠ s`, allocate the `ln`-byte buffer and read the
  file into it;
* on `'+'`: reject a 257th output point, request the three array
  reallocations and the `malloc(ln)` output buffer (whose size is the
  *current* `ln`), and record the file name;
* anything else: `"Bad argument syntax."`. -/
def step (mem : ℕ → Bool) (fs : List Char → Option (List ℕ))
    (st : PState) (a : List Char) : Except MainErr PState :=
  match parsePoint a 0 with
  | none => .error .pointTooLarge
  | some (p, rest) =>
    match rest with
    | [] => .error .badSyntax
    | c :: fname =>
      if c = '-' then
        if p ∈ st.ip then .error .dupInput
        else if !mem st.ctr then .error .allocFail
        else if !mem (st.ctr + 1) then .error .allocFail
        else
          match fs fname with
          | none => .error .openInput
          | some bytes =>
            if st.ln = 0 then
              if !mem (st.ctr + 2) then .error .allocFail
              else .ok { st with ip := st.ip ++ [p], iv := st.iv ++ [bytes],
                                 ln := bytes.length, ctr := st.ctr + 3 }
            else if st.ln ≠ bytes.length then .error .lenMismatch
            else if !mem (st.ctr + 2) then .error .allocFail
            else .ok { st with ip := st.ip ++ [p], iv := st.iv ++ [bytes],
                               ctr := st.ctr + 3 }
      else if c = '+' then
        if 256 ≤ st.op.length then .error .tooManyOutputs
        else if !mem st.ctr then .error .allocFail
        else if !mem (st.ctr + 1) then .error .allocFail
        else if !mem (st.ctr + 2) then .error .allocFail
        else if !mem (st.ctr + 3) then .error .allocFail
        else .ok { st with op := st.op ++ [p], ovLen := st.ovLen ++ [st.ln],
                           ofs := st.ofs ++ [fname], ctr := st.ctr + 4 }
      else .error .badSyntax

/-- The whole argument loop: process the arguments left to right, stopping
at the first `error(...)` exit. -/
def runArgs (mem : ℕ → Bool) (fs : List Char → Option (List ℕ)) :
    List (List Char) → PState → Except MainErr PState
  | [], st => .ok st
  | a :: as, st =>
    match step mem fs st a with
    | .error e => .error e
    | .ok st' => runArgs mem fs as st'

/-- Lines 231–245 of `main.c`: reject an empty input or output set, call
`sss` once with the accumulated job, then create each output file with mode
`outMode` and write `ln` bytes from the corresponding output buffer into it.
The engine is abstracted as a function from the job to the contents of the
output value buffers; output-file creation and writing are modelled as
succeeding. -/
def finalize (engine : SssJob → List (List ℕ)) (st : PState) :
    List Event × Option MainErr :=
  if st.ip.length = 0 then ([], some .noInput)
  else if st.op.length = 0 then ([], some .noOutput)
  else
    let job : SssJob :=
      { ip := st.ip, op := st.op, iv := st.iv, ovLen := st.ovLen, ln := st.ln }
    (Event.callSss job ::
      (List.range st.op.length).map (fun k =>
        Event.writeOut (st.ofs.getD k []) outMode st.ln
          (((engine job).getD k []).take st.ln)),
     none)

/-- The whole of `main`: the argument loop followed by the emptiness checks,
the `sss` call and the output writes.  Returns the list of externally
visible events in program order, and the error exit taken, if any. -/
def mainRun (engine : SssJob → List (List ℕ)) (mem : ℕ → Bool)
    (fs : List Char → Option (List ℕ)) (args : List (List Char)) :
    List Event × Option MainErr :=
  match runArgs mem fs args initState with
  | .error _e => ([], some _e)
  | .ok st => finalize engine st

/-- The process exit status: `EXIT_FAILURE` (1) on any `error(...)` exit,
`0` from the final `return (0)`. -/
def exitCode (r : List Event × Option MainErr) : ℕ :=
  match r.2 with
  | some _ => 1
  | none => 0

/-- The point of a command-line argument of input form (digits, `'-'`,
name), if the argument has that form. -/
def argInputPoint (a : List Char) : Option ℕ :=
  match parsePoint a 0 with
  | none => none
  | some (_, []) => none
  | some (p, c :: _) => if c = '-' then some p else none

/-- The point of a command-line argument of output form (digits, `'+'`,
name), if the argument has that form. -/
def argOutputPoint (a : List Char) : Option ℕ :=
  match parsePoint a 0 with
  | none => none
  | some (_, []) => none
  | some (p, c :: _) => if c = '+' then some p else none

/-- The file name of a command-line argument of output form. -/
def argOutputFile (a : List Char) : Option (List Char) :=
  match parsePoint a 0 with
  | none => none
  | some (_, []) => none
  | some (_, c :: f) => if c = '+' then some f else none

/-- The input points of a command line, in order. -/
def inputPointsOf (args : List (List Char)) : List ℕ :=
  args.filterMap argInputPoint

/-- The output points of a command line, in order. -/
def outputPointsOf (args : List (List Char)) : List ℕ :=
  args.filterMap argOutputPoint

/-- The output file names of a command line, in order. -/
def outputFilesOf (args : List (List Char)) : List (List Char) :=
  args.filterMap argOutputFile

/-- The accumulated value of a digit string, continuing from `acc` —
the accumulator of the parsing loop. -/
def foldVal (acc : ℕ) (ds : List Char) : ℕ :=
  ds.foldl (fun a c => a * 10 + digitVal c) acc

/-- The numeric value of a decimal digit string. -/
def digitsVal (ds : List Char) : ℕ := foldVal 0 ds

/-- A stand-in engine used to evaluate the driver model on concrete inputs:
it fills each output buffer with `ln` zero bytes. -/
def trivEngine (j : SssJob) : List (List ℕ) :=
  j.op.map (fun _ => List.replicate j.ln 0)

/-! ## Part 3: lemmas about the engine model -/

section EngineLemmas

variable {K : Type} [Field K] [DecidableEq K]

omit [DecidableEq K] in
lemma in_cross_eq_inv_nodalWeight {n : ℕ} (x : Fin n → K) (j : Fin n) :
    nodalWeight Finset.univ x j = (in_cross x j)⁻¹ := by
  rw [nodalWeight, in_cross, ← Finset.prod_inv_distrib]

/-- The engine's per-byte formula computes exactly the evaluation of the
Lagrange interpolating polynomial of the input data at the output point. -/
lemma sssByte_eq_eval_interpolate {n : ℕ} (x y : Fin n → K)
    (hx : Function.Injective x) (z : K) :
    sssByte x y z = (interpolate Finset.univ x y).eval z := by
  unfold sssByte
  cases hfind : (List.finRange n).find? (fun j => decide (x j = z)) with
  | some j =>
      have hp := List.find?_some hfind
      have hxj : x j = z := by simpa using hp
      rw [← hxj, eval_interpolate_at_node y hx.injOn (Finset.mem_univ j)]
  | none =>
      have hz : ∀ i ∈ Finset.univ, z ≠ x i := by
        intro i _
        have := List.find?_eq_none.mp hfind i (List.mem_finRange i)
        simpa [eq_comm] using this
      rw [eval_interpolate_not_at_node y hz]
      rw [Finset.mul_sum]
      refine Finset.sum_congr rfl (fun j _ => ?_)
      rw [in_cross_eq_inv_nodalWeight, out_cross, ← eval_nodal,
        div_eq_mul_inv, mul_inv]
      ring

/-- Interpolating at one of the input points returns that input's byte. -/
lemma sssByte_at_node {n : ℕ} (x y : Fin n → K) (hx : Function.Injective x)
    (j : Fin n) : sssByte x y (x j) = y j := by
  unfold sssByte
  cases hfind : (List.finRange n).find? (fun i => decide (x i = x j)) with
  | some i =>
      have hp := List.find?_some hfind
      have hxi : x i = x j := by simpa using hp
      rw [hx hxi]
  | none =>
      exact absurd (List.find?_eq_none.mp hfind j (List.mem_finRange j))
        (by simp)

/-- One complete split-then-reconstruct cycle at the byte level: interpolate
the data `y` over injective input points `x` at output points `z ∘ sel`, then
interpolate those share bytes back at the designated point `x j0`. -/
lemma sssByte_roundTrip {M N : ℕ} (x y : Fin M → K) (hx : Function.Injective x)
    (z : Fin N → K) (hz : Function.Injective z)
    (sel : Fin M → Fin N) (hsel : Function.Injective sel) (j0 : Fin M) :
    sssByte (fun j => z (sel j)) (fun j => sssByte x y (z (sel j))) (x j0)
      = y j0 := by
  have hu : Function.Injective (fun j => z (sel j)) := hz.comp hsel
  have hshare : (fun j => sssByte x y (z (sel j)))
      = fun j => (interpolate Finset.univ x y).eval ((fun i => z (sel i)) j) := by
    funext j
    exact sssByte_eq_eval_interpolate x y hx (z (sel j))
  rw [hshare, sssByte_eq_eval_interpolate _ _ hu (x j0),
    ← eq_interpolate hu.injOn (degree_interpolate_lt y hx.injOn),
    eval_interpolate_at_node y hx.injOn (Finset.mem_univ j0)]

omit [Field K] [DecidableEq K] in
lemma map_getD_range_eq (d : K) (l : List K) (ln : ℕ) (h : l.length = ln) :
    (List.range ln).map (fun i => l.getD i d) = l := by
  apply List.ext_getElem
  · simp [h]
  · intro i h1 h2
    simp only [List.getElem_map, List.getElem_range]
    rw [List.getD_eq_getElem l d h2]

lemma sssBuf_getD {n : ℕ} (x : Fin n → K) (yb : Fin n → List K) (z : K)
    (ln i : ℕ) (hi : i < ln) :
    (sssBuf x yb z ln).getD i 0 = sssByte x (fun j => (yb j).getD i 0) z := by
  unfold sssBuf
  rw [List.getD_eq_getElem _ _ (by simpa using hi)]
  simp

end EngineLemmas

/-! ## Part 4: lemmas about the driver model -/

lemma parsePoint_le {l : List Char} {p : ℕ} {r : List Char} :
    ∀ {acc : ℕ}, acc ≤ 255 → parsePoint l acc = some (p, r) → p ≤ 255 := by
  induction l with
  | nil =>
      intro acc hacc h
      simp [parsePoint] at h
      omega
  | cons c t ih =>
      intro acc hacc h
      by_cases hd : c.isDigit
      · simp only [parsePoint, hd, if_true] at h
        by_cases hq : 256 ≤ acc * 10 + digitVal c
        · simp [hq] at h
        · simp only [hq, if_false] at h
          exact ih (by omega) h
      · simp [parsePoint, hd] at h
        omega

lemma foldVal_cons (acc : ℕ) (c : Char) (t : List Char) :
    foldVal acc (c :: t) = foldVal (acc * 10 + digitVal c) t := rfl

lemma le_foldVal (acc : ℕ) (ds : List Char) : acc ≤ foldVal acc ds := by
  induction ds generalizing acc with
  | nil => exact Nat.le_refl acc
  | cons c t ih =>
      rw [foldVal_cons]
      calc acc ≤ acc * 10 + digitVal c := by omega
        _ ≤ foldVal (acc * 10 + digitVal c) t := ih _

lemma parsePoint_digits {ds rest : List Char}
    (hds : ∀ c ∈ ds, c.isDigit = true)
    (hrest : ∀ c, rest.head? = some c → c.isDigit = false) :
    ∀ {acc : ℕ}, foldVal acc ds ≤ 255 →
      parsePoint (ds ++ rest) acc = some (foldVal acc ds, rest) := by
  induction ds with
  | nil =>
      intro acc _
      cases rest with
      | nil => rfl
      | cons c t => simp [parsePoint, hrest c rfl, foldVal]
  | cons c t ih =>
      intro acc hval
      have hc : c.isDigit = true := hds c (List.mem_cons_self c t)
      rw [foldVal_cons] at hval
      have hq : ¬ 256 ≤ acc * 10 + digitVal c := by
        have := le_foldVal (acc * 10 + digitVal c) t
        omega
      simp only [List.cons_append, parsePoint, hc, if_true, hq, if_false]
      rw [foldVal_cons]
      exact ih (fun d hd => hds d (List.mem_cons_of_mem c hd)) hval

lemma parsePoint_overflow {ds rest : List Char}
    (hds : ∀ c ∈ ds, c.isDigit = true) :
    ∀ {acc : ℕ}, acc ≤ 255 → 256 ≤ foldVal acc ds →
      parsePoint (ds ++ rest) acc = none := by
  induction ds with
  | nil =>
      intro acc hacc hval
      rw [show foldVal acc [] = acc from rfl] at hval
      omega
  | cons c t ih =>
      intro acc hacc hval
      have hc : c.isDigit = true := hds c (List.mem_cons_self c t)
      rw [foldVal_cons] at hval
      by_cases hq : 256 ≤ acc * 10 + digitVal c
      · simp [parsePoint, hc, hq]
      · simp only [List.cons_append, parsePoint, hc, if_true, hq, if_false]
        exact ih (fun d hd => hds d (List.mem_cons_of_mem c hd)) (by omega) hval

lemma inputPointsOf_cons (a : List Char) (as : List (List Char)) :
    inputPointsOf (a :: as) = (argInputPoint a).toList ++ inputPointsOf as := by
  unfold inputPointsOf
  cases h : argInputPoint a <;> simp [List.filterMap_cons, h]

lemma outputPointsOf_cons (a : List Char) (as : List (List Char)) :
    outputPointsOf (a :: as) = (argOutputPoint a).toList ++ outputPointsOf as := by
  unfold outputPointsOf
  cases h : argOutputPoint a <;> simp [List.filterMap_cons, h]

lemma outputFilesOf_cons (a : List Char) (as : List (List Char)) :
    outputFilesOf (a :: as) = (argOutputFile a).toList ++ outputFilesOf as := by
  unfold outputFilesOf
  cases h : argOutputFile a <;> simp [List.filterMap_cons, h]

/-- Everything one loop iteration does to the accumulated arrays, stated for
an arbitrary starting state: points are appended according to the argument's
form, input points stay duplicate-free, newly appended points are bounded by
255, and the file-name array stays aligned with the output-point array. -/
lemma step_ok {mem : ℕ → Bool} {fs : List Char → Option (List ℕ)}
    {st st' : PState} {a : List Char} (h : step mem fs st a = .ok st') :
    st'.ip = st.ip ++ (argInputPoint a).toList ∧
    st'.op = st.op ++ (argOutputPoint a).toList ∧
    st'.ofs = st.ofs ++ (argOutputFile a).toList ∧
    (st.ip.Nodup → st'.ip.Nodup) ∧
    (∀ q ∈ st'.ip, q ∈ st.ip ∨ q ≤ 255) ∧
    (∀ q ∈ st'.op, q ∈ st.op ∨ q ≤ 255) ∧
    (st.ofs.length = st.op.length → st'.ofs.length = st'.op.length) := by
  unfold step at h
  cases hpp : parsePoint a 0 with
  | none => rw [hpp] at h; exact absurd h (by simp)
  | some pr =>
    obtain ⟨p, rest⟩ := pr
    have hple : p ≤ 255 := parsePoint_le (by omega) hpp
    rw [hpp] at h
    cases rest with
    | nil => exact absurd h (by simp)
    | cons c fname =>
      dsimp only at h
      by_cases hcm : c = '-'
      · subst hcm
        rw [if_pos rfl] at h
        by_cases hdup : p ∈ st.ip
        · rw [if_pos hdup] at h; exact absurd h (by simp)
        · rw [if_neg hdup] at h
          by_cases h1 : !mem st.ctr
          · rw [if_pos h1] at h; exact absurd h (by simp)
          · rw [if_neg h1] at h
            by_cases h2 : !mem (st.ctr + 1)
            · rw [if_pos h2] at h; exact absurd h (by simp)
            · rw [if_neg h2] at h
              cases hfs : fs fname with
              | none => rw [hfs] at h; exact absurd h (by simp)
              | some bytes =>
                rw [hfs] at h
                dsimp only at h
                have hip : argInputPoint a = some p := by
                  simp [argInputPoint, hpp]
                have hop : argOutputPoint a = none := by
                  simp [argOutputPoint, hpp]
                have hof : argOutputFile a = none := by
                  simp [argOutputFile, hpp]
                have hgoal : st'.ip = st.ip ++ [p] ∧ st'.op = st.op ∧
                    st'.ofs = st.ofs := by
                  by_cases hln : st.ln = 0
                  · rw [if_pos hln] at h
                    by_cases h3 : !mem (st.ctr + 2)
                    · rw [if_pos h3] at h; exact absurd h (by simp)
                    · rw [if_neg h3] at h
                      obtain rfl := Except.ok.inj h
                      exact ⟨rfl, rfl, rfl⟩
                  · rw [if_neg hln] at h
                    by_cases hlen : st.ln ≠ bytes.length
                    · rw [if_pos hlen] at h; exact absurd h (by simp)
                    · rw [if_neg hlen] at h
                      by_cases h3 : !mem (st.ctr + 2)
                      · rw [if_pos h3] at h; exact absurd h (by simp)
                      · rw [if_neg h3] at h
                        obtain rfl := Except.ok.inj h
                        exact ⟨rfl, rfl, rfl⟩
                obtain ⟨g1, g2, g3⟩ := hgoal
                refine ⟨by simp [hip, g1], by simp [hop, g2], by simp [hof, g3],
                  ?_, ?_, ?_, ?_⟩
                · intro hnd
                  rw [g1]
                  simp [List.nodup_append, hnd, hdup]
                · intro q hq
                  rw [g1] at hq
                  rcases List.mem_append.mp hq with hql | hqr
                  · exact Or.inl hql
                  · simp at hqr; omega
                · intro q hq
                  rw [g2] at hq
                  exact Or.inl hq
                · intro hlen2
                  rw [g2, g3]
                  exact hlen2
      · by_cases hcp : c = '+'
        · subst hcp
          rw [if_neg hcm, if_pos rfl] at h
          by_cases hcap : 256 ≤ st.op.length
          · rw [if_pos hcap] at h; exact absurd h (by simp)
          · rw [if_neg hcap] at h
            by_cases h1 : !mem st.ctr
            · rw [if_pos h1] at h; exact absurd h (by simp)
            · rw [if_neg h1] at h
              by_cases h2 : !mem (st.ctr + 1)
              · rw [if_pos h2] at h; exact absurd h (by simp)
              · rw [if_neg h2] at h
                by_cases h3 : !mem (st.ctr + 2)
                · rw [if_pos h3] at h; exact absurd h (by simp)
                · rw [if_neg h3] at h
                  by_cases h4 : !mem (st.ctr + 3)
                  · rw [if_pos h4] at h; exact absurd h (by simp)
                  · rw [if_neg h4] at h
                    obtain rfl := Except.ok.inj h
                    have hip : argInputPoint a = none := by
                      simp [argInputPoint, hpp, hcm]
                    have hop : argOutputPoint a = some p := by
                      simp [argOutputPoint, hpp]
                    have hof : argOutputFile a = some fname := by
                      simp [argOutputFile, hpp]
                    refine ⟨by simp [hip], by simp [hop], by simp [hof],
                      fun hnd => hnd, fun q hq => Or.inl hq, ?_, ?_⟩
                    · intro q hq
                      simp only [List.mem_append] at hq
                      rcases hq with hql | hqr
                      · exact Or.inl hql
                      · simp at hqr; omega
                    · intro hlen2
                      simp [hlen2]
        · rw [if_neg hcm, if_neg hcp] at h
          exact absurd h (by simp)

/-- What the whole argument loop does to the accumulated arrays, for an
arbitrary starting state. -/
lemma runArgs_ok {mem : ℕ → Bool} {fs : List Char → Option (List ℕ)} :
    ∀ {as : List (List Char)} {st st' : PState},
      runArgs mem fs as st = .ok st' →
      st'.ip = st.ip ++ inputPointsOf as ∧
      st'.op = st.op ++ outputPointsOf as ∧
      st'.ofs = st.ofs ++ outputFilesOf as ∧
      (st.ip.Nodup → st'.ip.Nodup) ∧
      (∀ q ∈ st'.ip, q ∈ st.ip ∨ q ≤ 255) ∧
      (∀ q ∈ st'.op, q ∈ st.op ∨ q ≤ 255) ∧
      (st.ofs.length = st.op.length → st'.ofs.length = st'.op.length) := by
  intro as
  induction as with
  | nil =>
      intro st st' h
      obtain rfl : st = st' := by
        simpa [runArgs] using h
      refine ⟨by simp [inputPointsOf], by simp [outputPointsOf],
        by simp [outputFilesOf], fun hnd => hnd,
        fun q hq => Or.inl hq, fun q hq => Or.inl hq, fun hl => hl⟩
  | cons a as ih =>
      intro st st' h
      unfold runArgs at h
      cases hs : step mem fs st a with
      | error e => rw [hs] at h; exact absurd h (by simp)
      | ok st1 =>
          rw [hs] at h
          obtain ⟨i1, o1, f1, n1, b1, c1, l1⟩ := step_ok hs
          obtain ⟨i2, o2, f2, n2, b2, c2, l2⟩ := ih h
          refine ⟨?_, ?_, ?_, ?_, ?_, ?_, ?_⟩
          · rw [i2, i1, inputPointsOf_cons, List.append_assoc]
          · rw [o2, o1, outputPointsOf_cons, List.append_assoc]
          · rw [f2, f1, outputFilesOf_cons, List.append_assoc]
          · exact fun hnd => n2 (n1 hnd)
          · intro q hq
            rcases b2 q hq with hq1 | hq2
            · exact b1 q hq1
            · exact Or.inr hq2
          · intro q hq
            rcases c2 q hq with hq1 | hq2
            · exact c1 q hq1
            · exact Or.inr hq2
          · exact fun hl => l2 (l1 hl)

/-- Processing a concatenation of argument lists is sequencing. -/
lemma runArgs_append {mem : ℕ → Bool} {fs : List Char → Option (List ℕ)} :
    ∀ (as bs : List (List Char)) (st : PState),
      runArgs mem fs (as ++ bs) st =
        match runArgs mem fs as st with
        | .error e => .error e
        | .ok st1 => runArgs mem fs bs st1 := by
  intro as
  induction as with
  | nil => intro bs st; rfl
  | cons a as ih =>
      intro bs st
      have hL : runArgs mem fs ((a :: as) ++ bs) st
          = match step mem fs st a with
            | .error e => .error e
            | .ok st1 => runArgs mem fs (as ++ bs) st1 := rfl
      have hR : runArgs mem fs (a :: as) st
          = match step mem fs st a with
            | .error e => .error e
            | .ok st1 => runArgs mem fs as st1 := rfl
      rw [hL, hR]
      cases hs : step mem fs st a with
      | error e => rfl
      | ok st1 => exact ih bs st1

/-- If some argument has a digit prefix that overflows the point check, the
loop errors out (at that argument, if no earlier argument already failed). -/
lemma runArgs_isError_of_parse_none (mem : ℕ → Bool)
    (fs : List Char → Option (List ℕ)) {a : List Char}
    (ha : parsePoint a 0 = none) :
    ∀ {as : List (List Char)} (st : PState), a ∈ as →
      ∃ e, runArgs mem fs as st = .error e := by
  intro as
  induction as with
  | nil => intro st hmem; exact absurd hmem (List.not_mem_nil a)
  | cons b as ih =>
      intro st hmem
      rcases List.mem_cons.mp hmem with rfl | hmem'
      · exact ⟨.pointTooLarge, by simp [runArgs, step, ha]⟩
      · cases hs : step mem fs st b with
        | error e => exact ⟨e, by simp [runArgs, hs]⟩
        | ok st1 =>
            obtain ⟨e, he⟩ := ih st1 hmem'
            exact ⟨e, by simp [runArgs, hs, he]⟩

/-- On any error exit, no event has happened: `sss` has not been called and
no output file has been created. -/
lemma mainRun_error_events {engine : SssJob → List (List ℕ)} {mem : ℕ → Bool}
    {fs : List Char → Option (List ℕ)} {args : List (List Char)} {e : MainErr}
    (h : (mainRun engine mem fs args).2 = some e) :
    (mainRun engine mem fs args).1 = [] := by
  unfold mainRun at *
  cases hr : runArgs mem fs args initState with
  | error e' => simp
  | ok st =>
      rw [hr] at h
      dsimp only at h ⊢
      unfold finalize at h ⊢
      by_cases h1 : st.ip.length = 0
      · simp [h1]
      · by_cases h2 : st.op.length = 0
        · simp [h1, h2]
        · rw [if_neg h1, if_neg h2] at h
          exact absurd h (by simp)

/-- On a run that takes no error exit, the loop succeeded with nonempty
input and output sets and the event trace is the `sss` call followed by one
write per output argument, in order. -/
lemma mainRun_ok {engine : SssJob → List (List ℕ)} {mem : ℕ → Bool}
    {fs : List Char → Option (List ℕ)} {args : List (List Char)}
    (h : (mainRun engine mem fs args).2 = none) :
    ∃ st, runArgs mem fs args initState = .ok st ∧ st.ip ≠ [] ∧ st.op ≠ [] ∧
      mainRun engine mem fs args =
        (Event.callSss ⟨st.ip, st.op, st.iv, st.ovLen, st.ln⟩ ::
          (List.range st.op.length).map (fun k =>
            Event.writeOut (st.ofs.getD k []) outMode st.ln
              (((engine ⟨st.ip, st.op, st.iv, st.ovLen, st.ln⟩).getD k []).take
                st.ln)),
         none) := by
  unfold mainRun at *
  cases hr : runArgs mem fs args initState with
  | error e =>
      rw [hr] at h
      exact absurd h (by simp)
  | ok st =>
      rw [hr] at h
      dsimp only at h ⊢
      unfold finalize at h ⊢
      by_cases h1 : st.ip.length = 0
      · rw [if_pos h1] at h
        exact absurd h (by simp)
      · by_cases h2 : st.op.length = 0
        · rw [if_neg h1, if_pos h2] at h
          exact absurd h (by simp)
        · refine ⟨st, rfl, ?_, ?_, ?_⟩
          · exact fun hnil => h1 (by simp [hnil])
          · exact fun hnil => h2 (by simp [hnil])
          · rw [if_neg h1, if_neg h2]

/-! ## Part 5: the claims -/

/-- **C1** — Round-trip reconstruction (settled against the spec-modelled
engine, `sss.c` being absent from the source tree): for every secret buffer
`S` of length `L`, every threshold `M` in 2..255 and every `N` with
`M ≤ N ≤ 255`, splitting (interpolating the input data — `S` at the
designated point `x j0`, arbitrary buffers at the other `M - 1` distinct
input points — at `N` distinct output points `z`) and then reconstructing
(interpolating any `M` of the `N` shares, chosen by the injective selection
`sel`, at the designated point) yields exactly `S`, byte for byte. -/
theorem c1_split_reconstruct_roundTrip {K : Type} [Field K] [DecidableEq K]
    (L M N : ℕ) (hM2 : 2 ≤ M) (hM : M ≤ 255) (hMN : M ≤ N) (hN : N ≤ 255)
    (x : Fin M → K) (hx : Function.Injective x) (j0 : Fin M)
    (S : List K) (hS : S.length = L)
    (yb : Fin M → List K) (hyl : ∀ j, (yb j).length = L) (hy0 : yb j0 = S)
    (z : Fin N → K) (hz : Function.Injective z)
    (sel : Fin M → Fin N) (hsel : Function.Injective sel) :
    sssBuf (fun j => z (sel j)) (fun j => sssBuf x yb (z (sel j)) L) (x j0) L
      = S := by
  have hcore : ∀ i ∈ List.range L,
      sssByte (fun j => z (sel j))
        (fun j => (sssBuf x yb (z (sel j)) L).getD i 0) (x j0) = S.getD i 0 := by
    intro i hi
    have hi' : i < L := List.mem_range.mp hi
    have hinner : (fun j => (sssBuf x yb (z (sel j)) L).getD i 0)
        = fun j => sssByte x (fun j2 => (yb j2).getD i 0) (z (sel j)) := by
      funext j
      exact sssBuf_getD x yb (z (sel j)) L i hi'
    rw [hinner,
      sssByte_roundTrip x (fun j2 => (yb j2).getD i 0) hx z hz sel hsel j0, hy0]
  calc sssBuf (fun j => z (sel j)) (fun j => sssBuf x yb (z (sel j)) L) (x j0) L
      = (List.range L).map (fun i => S.getD i 0) := List.map_congr_left hcore
    _ = S := map_getD_range_eq 0 S L hS

lemma inj01 : Function.Injective (![0, 1] : Fin 2 → ZMod 2) := by
  intro a b h
  fin_cases a <;> fin_cases b <;> revert h <;> decide

theorem c1_witness :
    2 ≤ 2 ∧ Function.Injective (![0, 1] : Fin 2 → ZMod 2) ∧
    sssBuf (fun j => (![0, 1] : Fin 2 → ZMod 2) (id j))
      (fun j => sssBuf (![0, 1] : Fin 2 → ZMod 2)
        (![[1], [0]] : Fin 2 → List (ZMod 2))
        ((![0, 1] : Fin 2 → ZMod 2) (id j)) 1)
      ((![0, 1] : Fin 2 → ZMod 2) 0) 1 = [1] :=
  ⟨by decide, inj01,
    c1_split_reconstruct_roundTrip 1 2 2 (by decide) (by decide) (by decide)
      (by decide) ![0, 1] inj01 0 [1] rfl ![[1], [0]] (by decide) rfl
      ![0, 1] inj01 id (fun _ _ hab => hab)⟩

/-- **C2** — Identity point (settled against the spec-modelled engine,
`sss.c` being absent from the source tree): for a job whose input points are
distinct and whose buffers all hold `ln` bytes, interpolating at an output
point `z` equal to input point `x j` returns a byte-for-byte copy of input
buffer `j`. -/
theorem c2_identity_point {K : Type} [Field K] [DecidableEq K] {n : ℕ}
    (x : Fin n → K) (hx : Function.Injective x) (yb : Fin n → List K)
    (ln : ℕ) (hlen : ∀ j, (yb j).length = ln) (j : Fin n) (z : K)
    (hz : z = x j) :
    sssBuf x yb z ln = yb j := by
  subst hz
  have hcore : ∀ i ∈ List.range ln,
      sssByte x (fun j2 => (yb j2).getD i 0) (x j) = (yb j).getD i 0 :=
    fun i _ => sssByte_at_node x _ hx j
  calc sssBuf x yb (x j) ln
      = (List.range ln).map (fun i => (yb j).getD i 0) :=
        List.map_congr_left hcore
    _ = yb j := map_getD_range_eq 0 (yb j) ln (hlen j)

theorem c2_witness :
    Function.Injective (![0] : Fin 1 → ZMod 2) ∧
    sssBuf (![0] : Fin 1 → ZMod 2) (![[1]] : Fin 1 → List (ZMod 2)) 0 1
      = [1] :=
  ⟨fun a b _ => Subsingleton.elim a b,
    c2_identity_point ![0] (fun a b _ => Subsingleton.elim a b) ![[1]] 1
      (by decide) 0 0 rfl⟩

lemma getD_map_range {α : Type} (g : ℕ → α) (n k : ℕ) (d : α) (hk : k < n) :
    ((List.range n).map g).getD k d = g k := by
  rw [List.getD_eq_getElem _ _ (by simpa using hk)]
  simp

/-- **C3** — evaluation of the driver at a failing input: on the command
line `+o -i` with the input file `i` holding one byte, the run is accepted
and `sss` is called with `ln = 1` while the single output value buffer was
allocated with `malloc(0)` (`ln` was still `0` when the `+` argument was
processed), so not every value buffer passed to `sss` holds `ln` bytes.
This contradicts the caller-established buffer-length precondition
documented in `src/sss.h` (each value buffer must be at least `ln` bytes). -/
theorem c3_output_buffer_alloc_before_ln :
    mainRun trivEngine (fun _ => true)
      (fun name => if name = ['i'] then some [7] else none)
      [['+', 'o'], ['-', 'i']]
    = ([Event.callSss ⟨[0], [0], [[7]], [0], 1⟩,
        Event.writeOut ['o'] outMode 1 [0]], none)
    ∧ ¬ (∀ sz ∈ ([0] : List ℕ), sz = 1) := by
  exact ⟨by decide, by decide⟩

/-- **C4** — evaluation of the driver at a failing input: on the command
line `-a 1-b +o` where file `a` is empty and file `b` holds one byte, the
two input files have different lengths yet no `"not the same len."` error is
raised (the `!ln` test of line 200 cannot distinguish "`ln` not yet
established" from "`ln` established as 0"), and `sss` is called with input
value buffers of unequal lengths. -/
theorem c4_empty_file_bypasses_length_check :
    mainRun trivEngine (fun _ => true)
      (fun name => if name = ['a'] then some [] else
                   if name = ['b'] then some [7] else none)
      [['-', 'a'], ['1', '-', 'b'], ['+', 'o']]
    = ([Event.callSss ⟨[0, 1], [0], [[], [7]], [1], 1⟩,
        Event.writeOut ['o'] outMode 1 [0]], none)
    ∧ ¬ (∀ v ∈ ([[], [7]] : List (List ℕ)), v.length = 1) := by
  exact ⟨by decide, by decide⟩

/-- **C5** — Duplicate-input rejection: whenever two input arguments of the
command line carry the same point value (the list of input points is not
duplicate-free), the run takes an error exit, and no event happens: `sss`
is never invoked (in particular never with duplicate input points) and no
output file is touched, for any positions of the duplicated arguments. -/
theorem c5_duplicate_input_rejected (engine : SssJob → List (List ℕ))
    (mem : ℕ → Bool) (fs : List Char → Option (List ℕ))
    (args : List (List Char)) (hdup : ¬ (inputPointsOf args).Nodup) :
    (mainRun engine mem fs args).2.isSome = true ∧
    (mainRun engine mem fs args).1 = [] := by
  have h2 : (mainRun engine mem fs args).2.isSome = true := by
    cases hr : (mainRun engine mem fs args).2 with
    | some e => rfl
    | none =>
        obtain ⟨st, hok, _, _, _⟩ := mainRun_ok hr
        obtain ⟨hip, _, _, hnd, _, _, _⟩ := runArgs_ok hok
        refine absurd ?_ hdup
        have hstnd : st.ip.Nodup := hnd (by simp [initState])
        rw [hip] at hstnd
        simpa [initState] using hstnd
  obtain ⟨e, he⟩ := Option.isSome_iff_exists.mp h2
  exact ⟨h2, mainRun_error_events he⟩

theorem c5_witness :
    ¬ (inputPointsOf [['1', '-', 'a'], ['1', '-', 'b']]).Nodup ∧
    ((mainRun trivEngine (fun _ => true) (fun _ => none)
        [['1', '-', 'a'], ['1', '-', 'b']]).2.isSome = true ∧
      (mainRun trivEngine (fun _ => true) (fun _ => none)
        [['1', '-', 'a'], ['1', '-', 'b']]).1 = []) :=
  ⟨by decide,
    c5_duplicate_input_rejected trivEngine (fun _ => true) (fun _ => none)
      [['1', '-', 'a'], ['1', '-', 'b']] (by decide)⟩

/-- **C6** — Empty-point-set rejection: a command line with no input
argument or no output argument always takes an error exit, `sss` is not
called and no output file is created (the event trace is empty). -/
theorem c6_empty_point_set_rejected (engine : SssJob → List (List ℕ))
    (mem : ℕ → Bool) (fs : List Char → Option (List ℕ))
    (args : List (List Char))
    (h : inputPointsOf args = [] ∨ outputPointsOf args = []) :
    (mainRun engine mem fs args).2.isSome = true ∧
    (mainRun engine mem fs args).1 = [] := by
  have h2 : (mainRun engine mem fs args).2.isSome = true := by
    cases hr : (mainRun engine mem fs args).2 with
    | some e => rfl
    | none =>
        obtain ⟨st, hok, hipne, hopne, _⟩ := mainRun_ok hr
        obtain ⟨hip, hop, _, _, _, _, _⟩ := runArgs_ok hok
        rcases h with h | h
        · exact absurd (by rw [hip, h]; simp [initState]) hipne
        · exact absurd (by rw [hop, h]; simp [initState]) hopne
  obtain ⟨e, he⟩ := Option.isSome_iff_exists.mp h2
  exact ⟨h2, mainRun_error_events he⟩

theorem c6_witness :
    (inputPointsOf [['+', 'o']] = [] ∨ outputPointsOf [['+', 'o']] = []) ∧
    ((mainRun trivEngine (fun _ => true) (fun _ => none)
        [['+', 'o']]).2.isSome = true ∧
      (mainRun trivEngine (fun _ => true) (fun _ => none)
        [['+', 'o']]).1 = []) :=
  ⟨Or.inl (by decide),
    c6_empty_point_set_rejected trivEngine (fun _ => true) (fun _ => none)
      [['+', 'o']] (Or.inl (by decide))⟩

/-- **C7** — Point parsing: for an argument `ds ++ rest` whose leading
digit string is `ds` (and `rest` starts with a non-digit or is empty):
the digit string is parsed as the point value when it fits (with `ds = []`
this value is `0`, the default for an absent point); as soon as an
accumulated prefix value reaches 256 the parse fails, and a command line
containing such an argument takes an error exit; consequently every point
of the job handed to `sss` on an accepted run lies in 0..255. -/
theorem c7_point_parsing (engine : SssJob → List (List ℕ)) (mem : ℕ → Bool)
    (fs : List Char → Option (List ℕ)) (args : List (List Char))
    (ds rest : List Char)
    (hds : ∀ c ∈ ds, c.isDigit = true)
    (hrest : ∀ c, rest.head? = some c → c.isDigit = false) :
    (digitsVal ds ≤ 255 →
      parsePoint (ds ++ rest) 0 = some (digitsVal ds, rest)) ∧
    (256 ≤ digitsVal ds → parsePoint (ds ++ rest) 0 = none) ∧
    (256 ≤ digitsVal ds → (ds ++ rest) ∈ args →
      (mainRun engine mem fs args).2.isSome = true) ∧
    (∀ evs job, mainRun engine mem fs args = (evs, none) →
      Event.callSss job ∈ evs →
      (∀ q ∈ job.ip, q ≤ 255) ∧ (∀ q ∈ job.op, q ≤ 255)) := by
  refine ⟨?_, ?_, ?_, ?_⟩
  · intro hle
    exact parsePoint_digits hds hrest hle
  · intro hge
    exact parsePoint_overflow hds (by omega) hge
  · intro hge hmem
    obtain ⟨e, he⟩ := runArgs_isError_of_parse_none mem fs
      (parsePoint_overflow hds (by omega) hge) initState hmem
    simp [mainRun, he]
  · intro evs job hrun hmem
    have h2 : (mainRun engine mem fs args).2 = none := by rw [hrun]
    obtain ⟨st, hok, _, _, heq⟩ := mainRun_ok h2
    rw [hrun] at heq
    have hevs : evs = Event.callSss ⟨st.ip, st.op, st.iv, st.ovLen, st.ln⟩ ::
        (List.range st.op.length).map (fun k =>
          Event.writeOut (st.ofs.getD k []) outMode st.ln
            (((engine ⟨st.ip, st.op, st.iv, st.ovLen, st.ln⟩).getD k []).take
              st.ln)) :=
      congrArg Prod.fst heq
    rw [hevs] at hmem
    have hjob : job = ⟨st.ip, st.op, st.iv, st.ovLen, st.ln⟩ := by
      rcases List.mem_cons.mp hmem with hhead | htail
      · exact (Event.callSss.inj hhead)
      · exfalso
        obtain ⟨k, _, hk⟩ := List.mem_map.mp htail
        exact Event.noConfusion hk
    obtain ⟨_, _, _, _, hbip, hbop, _⟩ := runArgs_ok hok
    subst hjob
    constructor
    · intro q hq
      rcases hbip q hq with hq1 | hq2
      · exact absurd hq1 (by simp [initState])
      · exact hq2
    · intro q hq
      rcases hbop q hq with hq1 | hq2
      · exact absurd hq1 (by simp [initState])
      · exact hq2

theorem c7_witness :
    parsePoint (['3', '0', '0'] ++ ['-', 'f']) 0 = none :=
  (c7_point_parsing trivEngine (fun _ => true) (fun _ => none) []
    ['3', '0', '0'] ['-', 'f'] (by decide) (by decide)).2.1 (by decide)

/-- **C8** — Output-file permissions and timing: on every accepted run the
event trace is the `sss` call followed by one write per output argument, so
every output file is created and written only after `sss` has returned, and
each is created with permission bits exactly `outMode` =
`S_IRUSR|S_IWUSR|S_IRGRP|S_IROTH` = octal 644 (owner read+write, group
read, other read) and written `ln` bytes. -/
theorem c8_output_permissions_after_sss (engine : SssJob → List (List ℕ))
    (mem : ℕ → Bool) (fs : List Char → Option (List ℕ))
    (args : List (List Char)) (evs : List Event)
    (h : mainRun engine mem fs args = (evs, none)) :
    outMode = 0o644 ∧
    ∃ job ws, evs = Event.callSss job :: ws ∧
      ws.length = job.op.length ∧
      ∀ e ∈ ws, ∃ f b, e = Event.writeOut f outMode job.ln b := by
  refine ⟨rfl, ?_⟩
  have h2 : (mainRun engine mem fs args).2 = none := by rw [h]
  obtain ⟨st, hok, _, _, heq⟩ := mainRun_ok h2
  rw [h] at heq
  have hevs : evs = Event.callSss ⟨st.ip, st.op, st.iv, st.ovLen, st.ln⟩ ::
      (List.range st.op.length).map (fun k =>
        Event.writeOut (st.ofs.getD k []) outMode st.ln
          (((engine ⟨st.ip, st.op, st.iv, st.ovLen, st.ln⟩).getD k []).take
            st.ln)) :=
    congrArg Prod.fst heq
  refine ⟨⟨st.ip, st.op, st.iv, st.ovLen, st.ln⟩, _, hevs, by simp, ?_⟩
  intro e he
  obtain ⟨k, _, hk⟩ := List.mem_map.mp he
  exact ⟨st.ofs.getD k [],
    ((engine ⟨st.ip, st.op, st.iv, st.ovLen, st.ln⟩).getD k []).take st.ln,
    hk.symm⟩

theorem c8_witness :
    outMode = 0o644 ∧
    ∃ job ws,
      ([Event.callSss ⟨[0], [0], [[5]], [1], 1⟩,
        Event.writeOut ['o'] outMode 1 [0]] : List Event)
        = Event.callSss job :: ws ∧
      ws.length = job.op.length ∧
      ∀ e ∈ ws, ∃ f b, e = Event.writeOut f outMode job.ln b :=
  c8_output_permissions_after_sss trivEngine (fun _ => true)
    (fun name => if name = ['i'] then some [5] else none)
    [['-', 'i'], ['+', 'o']]
    [Event.callSss ⟨[0], [0], [[5]], [1], 1⟩,
     Event.writeOut ['o'] outMode 1 [0]] (by decide)

/-- **C9** — Error atomicity at the program boundary: every error exit
(each carrying its `stderr` message, see `errMsg`) happens with an empty
event trace — before `sss` is called and before any output file is created
or truncated — and yields exit status 1 (`EXIT_FAILURE`); exit status 0
occurs only on runs whose trace is the `sss` call followed by a full
`ln`-byte write for every output argument. -/
theorem c9_error_atomicity (engine : SssJob → List (List ℕ)) (mem : ℕ → Bool)
    (fs : List Char → Option (List ℕ)) (args : List (List Char)) :
    (∀ e, (mainRun engine mem fs args).2 = some e →
      (mainRun engine mem fs args).1 = [] ∧
      exitCode (mainRun engine mem fs args) = 1) ∧
    ((mainRun engine mem fs args).2 = none →
      exitCode (mainRun engine mem fs args) = 0 ∧
      ∃ job ws, (mainRun engine mem fs args).1 = Event.callSss job :: ws ∧
        ws.length = job.op.length ∧
        ∀ e ∈ ws, ∃ f b, e = Event.writeOut f outMode job.ln b) := by
  constructor
  · intro e he
    refine ⟨mainRun_error_events he, ?_⟩
    unfold exitCode
    rw [he]
  · intro h2
    refine ⟨by unfold exitCode; rw [h2], ?_⟩
    obtain ⟨st, hok, _, _, heq⟩ := mainRun_ok h2
    have hevs : (mainRun engine mem fs args).1 =
        Event.callSss ⟨st.ip, st.op, st.iv, st.ovLen, st.ln⟩ ::
        (List.range st.op.length).map (fun k =>
          Event.writeOut (st.ofs.getD k []) outMode st.ln
            (((engine ⟨st.ip, st.op, st.iv, st.ovLen, st.ln⟩).getD k []).take
              st.ln)) :=
      congrArg Prod.fst heq
    refine ⟨⟨st.ip, st.op, st.iv, st.ovLen, st.ln⟩, _, hevs, by simp, ?_⟩
    intro e he
    obtain ⟨k, _, hk⟩ := List.mem_map.mp he
    exact ⟨st.ofs.getD k [],
      ((engine ⟨st.ip, st.op, st.iv, st.ovLen, st.ln⟩).getD k []).take st.ln,
      hk.symm⟩

theorem c9_witness :
    (mainRun trivEngine (fun _ => true) (fun _ => none) [['x']]).1 = [] ∧
    exitCode (mainRun trivEngine (fun _ => true) (fun _ => none) [['x']]) = 1 :=
  (c9_error_atomicity trivEngine (fun _ => true) (fun _ => none) [['x']]).1
    MainErr.badSyntax (by decide)

/-- **C10** — Duplicate output points are accepted: appending to an accepted
command line a further output argument `a` whose point `p` already occurs
among the output points (with fewer than 256 outputs so far, and with
allocations succeeding) yields again an accepted run — only input points are
checked for duplicates — and each output occurrence gets its own write: the
`k`-th write goes to the `k`-th output file name with the `k`-th output
buffer computed by the engine. -/
theorem c10_duplicate_output_accepted (engine : SssJob → List (List ℕ))
    (mem : ℕ → Bool) (fs : List Char → Option (List ℕ))
    (args : List (List Char)) (a : List Char) (p : ℕ) (f : List Char)
    (hok : (mainRun engine mem fs args).2 = none)
    (hmem : ∀ k, mem k = true)
    (ha : parsePoint a 0 = some (p, '+' :: f))
    (hdup : p ∈ outputPointsOf args)
    (hcap : (outputPointsOf args).length < 256) :
    ∃ job ws,
      mainRun engine mem fs (args ++ [a]) = (Event.callSss job :: ws, none) ∧
      job.op = outputPointsOf args ++ [p] ∧
      ws.length = (outputPointsOf args).length + 1 ∧
      ∀ k, k < ws.length →
        ws.getD k (Event.callSss job) =
          Event.writeOut ((outputFilesOf (args ++ [a])).getD k []) outMode
            job.ln (((engine job).getD k []).take job.ln) := by
  obtain ⟨st, hok1, hipne, hopne, _⟩ := mainRun_ok hok
  obtain ⟨hip, hop, hofs, _, _, _, _⟩ := runArgs_ok hok1
  have hop' : st.op = outputPointsOf args := by simpa [initState] using hop
  have hofs' : st.ofs = outputFilesOf args := by simpa [initState] using hofs
  have hcap' : ¬ 256 ≤ st.op.length := by rw [hop']; omega
  have hstep : step mem fs st a
      = .ok { st with op := st.op ++ [p], ovLen := st.ovLen ++ [st.ln],
                      ofs := st.ofs ++ [f], ctr := st.ctr + 4 } := by
    unfold step
    rw [ha]
    dsimp only
    rw [if_neg (by decide : ¬('+' : Char) = '-'), if_pos rfl, if_neg hcap']
    simp [hmem]
  have hrun2 : runArgs mem fs (args ++ [a]) initState
      = .ok { st with op := st.op ++ [p], ovLen := st.ovLen ++ [st.ln],
                      ofs := st.ofs ++ [f], ctr := st.ctr + 4 } := by
    rw [runArgs_append args [a] initState, hok1]
    dsimp only
    show (match step mem fs st a with
          | Except.error e => (Except.error e : Except MainErr PState)
          | Except.ok st1 => runArgs mem fs [] st1) = _
    rw [hstep]
    rfl
  have hfile : argOutputFile a = some f := by
    simp [argOutputFile, ha]
  have hofs2 : outputFilesOf (args ++ [a]) = st.ofs ++ [f] := by
    unfold outputFilesOf
    rw [List.filterMap_append, hofs']
    simp [outputFilesOf, List.filterMap_cons, hfile]
  refine ⟨⟨st.ip, st.op ++ [p], st.iv, st.ovLen ++ [st.ln], st.ln⟩,
    (List.range (st.op ++ [p]).length).map (fun k =>
      Event.writeOut ((st.ofs ++ [f]).getD k []) outMode st.ln
        (((engine ⟨st.ip, st.op ++ [p], st.iv, st.ovLen ++ [st.ln],
            st.ln⟩).getD k []).take st.ln)),
    ?_, by rw [hop'], ?_, ?_⟩
  · unfold mainRun
    rw [hrun2]
    dsimp only
    unfold finalize
    rw [if_neg (by simpa using hipne), if_neg (by simp)]
  · simp [hop']
  · intro k hk
    have hk' : k < (st.op ++ [p]).length := by
      simp only [List.length_map, List.length_range] at hk
      exact hk
    rw [getD_map_range _ _ _ _ hk', hofs2]

theorem c10_witness :
    ∃ job ws,
      mainRun trivEngine (fun _ => true)
        (fun name => if name = ['i'] then some [5] else none)
        ([['-', 'i'], ['1', '+', 'o']] ++ [['1', '+', 'q']])
      = (Event.callSss job :: ws, none) ∧
      job.op = outputPointsOf [['-', 'i'], ['1', '+', 'o']] ++ [1] ∧
      ws.length = (outputPointsOf [['-', 'i'], ['1', '+', 'o']]).length + 1 ∧
      ∀ k, k < ws.length →
        ws.getD k (Event.callSss job) =
          Event.writeOut
            ((outputFilesOf ([['-', 'i'], ['1', '+', 'o']]
              ++ [['1', '+', 'q']])).getD k []) outMode job.ln
            (((trivEngine job).getD k []).take job.ln) :=
  c10_duplicate_output_accepted trivEngine (fun _ => true)
    (fun name => if name = ['i'] then some [5] else none)
    [['-', 'i'], ['1', '+', 'o']] ['1', '+', 'q'] 1 ['q']
    (by decide) (fun _ => rfl) (by decide) (by decide) (by decide)
